import Mathlib

/-!
Verification of the adaptive question-sequencing engine of the Quiz-Generator
repository: the difficulty optimizer (`backend/utils/dynamic_programming.py`),
the sequencing queue (`backend/utils/queue_manager.py`) and the question
index tree (`backend/utils/tree_structure.py`).

Python floats are modelled as rationals (`ℚ`), Python ints as `Int`,
Python dicts as insertion-ordered association lists.  Question records are
modelled with the fields the engine reads (id, subject, topic, difficulty);
the remaining fields (text, options, …) are never consulted by any of the
three modules.
-/

/-- The `DifficultyLevel` enum from `backend/models/question.py`:
beginner < intermediate < advanced < expert. -/
inductive Difficulty where
  | beginner
  | intermediate
  | advanced
  | expert
deriving DecidableEq, Repr

/-- The `.value` string of a `DifficultyLevel` member. -/
def diffValue : Difficulty → String
  | .beginner => "beginner"
  | .intermediate => "intermediate"
  | .advanced => "advanced"
  | .expert => "expert"

/-- A question record, restricted to the fields read by the engine. -/
structure Question where
  id : String
  subject : String
  topic : String
  difficulty : Difficulty
deriving DecidableEq, Repr

/- ------------------------------------------------------------------
   Difficulty optimizer (`backend/utils/dynamic_programming.py`)
   ------------------------------------------------------------------ -/

/-- Model of `self.difficulty_map`: ordinal level of each difficulty. -/
def difficulty_map : Difficulty → Nat
  | .beginner => 0
  | .intermediate => 1
  | .advanced => 2
  | .expert => 3

/-- Model of `self.reverse_difficulty_map`.  In the source this is a dict on keys
0..3; it is only ever applied to values produced by
`_calculate_optimal_transition`, which lie in 0..3, so the catch-all
branch is unreachable. -/
def reverse_difficulty_map : Nat → Difficulty
  | 0 => .beginner
  | 1 => .intermediate
  | 2 => .advanced
  | _ => .expert

/-- Model of `self.efficiency_matrix`: rows = performance category, columns =
target difficulty level. -/
def efficiency_matrix : Nat → Nat → ℚ
  | 0, 0 => 9/10 | 0, 1 => 7/10 | 0, 2 => 3/10 | 0, 3 => 1/10
  | 1, 0 => 8/10 | 1, 1 => 9/10 | 1, 2 => 6/10 | 1, 3 => 3/10
  | 2, 0 => 6/10 | 2, 1 => 8/10 | 2, 2 => 8/10 | 2, 3 => 5/10
  | 3, 0 => 4/10 | 3, 1 => 6/10 | 3, 2 => 7/10 | 3, 3 => 6/10
  | _, _ => 0

/-- Model of `self.transition_costs.get(level_change, 0.5)`: fixed lookup over
signed level deltas, default 0.5. -/
def transition_costs (delta : Int) : ℚ :=
  if delta = 0 then 0
  else if delta = 1 then 1/10
  else if delta = -1 then 1/20
  else if delta = 2 then 3/10
  else if delta = -2 then 1/5
  else if delta = 3 then 1/2
  else if delta = -3 then 2/5
  else 1/2

/-- Model of `_get_performance_category`. -/
def get_performance_category (performance_score : ℚ) : Nat :=
  if performance_score ≥ 8/10 then 0
  else if performance_score ≥ 6/10 then 1
  else if performance_score ≥ 4/10 then 2
  else 3

/-- Model of `_calculate_trend_factor`.  `recent_scores = history[-3:]` is modelled
by `List.drop (length - 3)`, which like the Python slice returns the whole
list when it has fewer than 3 elements.  `recent_scores[0]` /
`recent_scores[-1]` are modelled with `headD` / `getLastD`; the defaults
are never used because the list is non-empty on that branch. -/
def calculate_trend_factor (performance_history : List ℚ) : ℚ :=
  if performance_history.length < 3 then 1
  else
    let recent_scores := performance_history.drop (performance_history.length - 3)
    if recent_scores.length < 2 then 1
    else
      let trend := (recent_scores.getLastD 0 - recent_scores.headD 0) /
        ((recent_scores.length : ℚ) - 1)
      max (1/2) (min (3/2) (1 + trend))

/-- The trend factor as used at the call site in
`_calculate_optimal_transition`:
`self._calculate_trend_factor(performance_history) if performance_history else 1.0`.
`none` and the empty list are both falsy in Python. -/
def used_trend_factor (performance_history : Option (List ℚ)) : ℚ :=
  match performance_history with
  | none => 1
  | some h => if h = [] then 1 else calculate_trend_factor h

/-- The loop of `_calculate_optimal_transition`: accumulator is
`(max_value, optimal_level)`; `none` in the first component stands for
the initial `-float('inf')`, which every candidate value strictly
exceeds. -/
def transition_loop_aux (perf_category current_level : Nat) (trend_factor : ℚ) :
    List Nat → Option ℚ × Nat → Option ℚ × Nat
  | [], acc => acc
  | next_level :: rest, acc =>
    let level_change : Int := (next_level : Int) - (current_level : Int)
    let total_value := efficiency_matrix perf_category next_level
      - transition_costs level_change + trend_factor * (1/10)
    let acc' := match acc.1 with
      | none => (some total_value, next_level)
      | some max_value =>
        if max_value < total_value then (some total_value, next_level) else acc
    transition_loop_aux perf_category current_level trend_factor rest acc'

/-- Model of `_calculate_optimal_transition`; the per-iteration trend factor (constant across the loop) is hoisted out of the loop. -/
def calculate_optimal_transition (current_level : Nat) (performance_score : ℚ)
    (performance_history : Option (List ℚ)) : Nat :=
  let perf_category := get_performance_category performance_score
  let trend_factor := used_trend_factor performance_history
  (transition_loop_aux perf_category current_level trend_factor
    [0, 1, 2, 3] (none, current_level)).2

/-- Python's `round(x, 2)`: round half to even at two decimal places. -/
def round2 (x : ℚ) : ℚ :=
  let y := x * 100
  let f : Int := Int.floor y
  let r := y - (f : ℚ)
  let n : Int :=
    if r < 1/2 then f
    else if r > 1/2 then f + 1
    else if f % 2 = 0 then f else f + 1
  (n : ℚ) / 100

/-- The memoization cache `self.transition_cache`, an insertion-ordered
dict keyed by `(current_level, round(performance_score, 2))`. -/
def OptCache := List ((Nat × ℚ) × Nat)

/-- Dict lookup on the cache. -/
def cacheLookup : List ((Nat × ℚ) × Nat) → (Nat × ℚ) → Option Nat
  | [], _ => none
  | (k, v) :: rest, key => if k = key then some v else cacheLookup rest key

/-- Model of `get_optimal_next_difficulty`, with the cache passed and returned
explicitly (it is the only mutable state of the optimizer). -/
def get_optimal_next_difficulty (cache : List ((Nat × ℚ) × Nat))
    (current_difficulty : Difficulty) (performance_score : ℚ)
    (performance_history : Option (List ℚ)) :
    Difficulty × List ((Nat × ℚ) × Nat) :=
  let current_level := difficulty_map current_difficulty
  let cache_key := (current_level, round2 performance_score)
  match cacheLookup cache cache_key with
  | some cached => (reverse_difficulty_map cached, cache)
  | none =>
    let optimal_level :=
      calculate_optimal_transition current_level performance_score performance_history
    (reverse_difficulty_map optimal_level, cache ++ [(cache_key, optimal_level)])

/- ------------------------------------------------------------------
   Sequencing queue (`backend/utils/queue_manager.py`)
   ------------------------------------------------------------------ -/

/-- One entry of `self.answered_questions`:
`{question, is_correct, time_taken, difficulty}`. -/
structure AnswerRecord where
  question : Question
  is_correct : Bool
  time_taken : ℚ
  difficulty : Difficulty
deriving DecidableEq, Repr

/-- Model of `self.stats['difficulty_distribution']`. -/
structure DiffDist where
  beginner : Int
  intermediate : Int
  advanced : Int
  expert : Int
deriving DecidableEq, Repr

/-- Model of the increment `self.stats['difficulty_distribution'][question.difficulty.value] += 1`. -/
def bumpDist (d : DiffDist) : Difficulty → DiffDist
  | .beginner => { d with beginner := d.beginner + 1 }
  | .intermediate => { d with intermediate := d.intermediate + 1 }
  | .advanced => { d with advanced := d.advanced + 1 }
  | .expert => { d with expert := d.expert + 1 }

/-- Model of `self.stats`. -/
structure QStats where
  total_added : Int
  total_served : Int
  current_size : Int
  difficulty_distribution : DiffDist
deriving DecidableEq, Repr

/-- The `QuestionQueue` state: the deque (head = front), the flags,
the logs, the stats, and the embedded optimizer's memoization cache
(`self.difficulty_optimizer.transition_cache`). -/
structure QState where
  queue : List Question
  adaptive_mode : Bool
  answered_questions : List AnswerRecord
  performance_history : List ℚ
  stats : QStats
  opt_cache : List ((Nat × ℚ) × Nat)

/-- Model of `QuestionQueue.__init__(adaptive_mode)`. -/
def initQueue (adaptive_mode : Bool) : QState :=
  { queue := []
    adaptive_mode := adaptive_mode
    answered_questions := []
    performance_history := []
    stats := ⟨0, 0, 0, ⟨0, 0, 0, 0⟩⟩
    opt_cache := [] }

/-- Model of `random.shuffle`: selection without replacement driven by
an explicit list of random draws: each draw picks (index mod current
length) and removes that element.  Any draw list yields a permutation of
the input, and every permutation is reachable, which is exactly the
guarantee `random.shuffle` provides. -/
def shuffleWith : List Nat → List Question → List Question
  | _, [] => []
  | [], xs => xs
  | i :: is, x :: xs =>
    let j := i % (x :: xs).length
    (x :: xs).getD j x :: shuffleWith is ((x :: xs).eraseIdx j)

/-- Model of `_update_stats`. -/
def update_stats (s : QState) : QState :=
  { s with stats := { s.stats with current_size := (s.queue.length : Int) } }

/-- The body of the `for question in question_list` loop of
`add_questions`: append to the deque and bump the counters. -/
def add_questions_step (st : QState) (q : Question) : QState :=
  { st with
    queue := st.queue ++ [q]
    stats := { st.stats with
      total_added := st.stats.total_added + 1
      difficulty_distribution :=
        bumpDist st.stats.difficulty_distribution q.difficulty } }

/-- Model of `add_questions(questions, randomize)`; the `seed` parameter feeds the
`random.shuffle` model. -/
def add_questions (s : QState) (questions : List Question) (randomize : Bool)
    (seed : List Nat) : QState :=
  let question_list := if randomize then shuffleWith seed questions else questions
  update_stats (question_list.foldl add_questions_step s)

/-- Model of `add_question_priority(question, priority)`. -/
def add_question_priority (s : QState) (question : Question) (priority : String) :
    QState :=
  let s :=
    if priority = "high" then { s with queue := question :: s.queue }
    else { s with queue := s.queue ++ [question] }
  let s := { s with stats := { s.stats with
    total_added := s.stats.total_added + 1
    difficulty_distribution :=
      bumpDist s.stats.difficulty_distribution question.difficulty } }
  update_stats s

/-- Model of `record_answer(question, is_correct, time_taken)`. -/
def record_answer (s : QState) (question : Question) (is_correct : Bool)
    (time_taken : ℚ) : QState :=
  let answer_record : AnswerRecord :=
    ⟨question, is_correct, time_taken, question.difficulty⟩
  let history := s.performance_history ++ [if is_correct then (1 : ℚ) else 0]
  { s with
    answered_questions := s.answered_questions ++ [answer_record]
    performance_history :=
      if history.length > 10 then history.tail else history }

/-- Model of `_get_current_difficulty_level`. -/
def get_current_difficulty_level (s : QState) : Difficulty :=
  match s.answered_questions.getLast? with
  | none => .intermediate
  | some record => record.difficulty

/-- Model of `_reorder_by_difficulty(target_difficulty)`: stable partition with the
target-difficulty bucket first. -/
def reorder_by_difficulty (queue : List Question) (target_difficulty : Difficulty) :
    List Question :=
  queue.filter (fun q => q.difficulty = target_difficulty) ++
    queue.filter (fun q => ¬ q.difficulty = target_difficulty)

/-- Model of `_apply_adaptive_ordering`: mean of the last 3 history entries
(`sum(history[-3:]) / 3`), current difficulty from the last answered
question, optimizer recommendation (no history argument is passed),
then the stable partition. -/
def apply_adaptive_ordering (s : QState) : QState :=
  if s.performance_history.length < 3 then s
  else
    let recent_performance :=
      (s.performance_history.drop (s.performance_history.length - 3)).sum / 3
    let current_difficulty := get_current_difficulty_level s
    let r := get_optimal_next_difficulty s.opt_cache current_difficulty
      recent_performance none
    { s with
      queue := reorder_by_difficulty s.queue r.1
      opt_cache := r.2 }

/-- Model of `get_next_question`.  The inner `[]` branch is unreachable: the
adaptive reorder preserves the queue's contents, so a non-empty queue
stays non-empty. -/
def get_next_question (s : QState) : Option Question × QState :=
  match s.queue with
  | [] => (none, s)
  | _ :: _ =>
    let s1 :=
      if s.adaptive_mode ∧ s.performance_history ≠ [] then
        apply_adaptive_ordering s
      else s
    match s1.queue with
    | [] => (none, s1)
    | question :: rest =>
      let s2 := { s1 with
        queue := rest
        stats := { s1.stats with total_served := s1.stats.total_served + 1 } }
      (some question, update_stats s2)

/-- Model of `peek_next_question` (read-only). -/
def peek_next_question (s : QState) : Option Question :=
  s.queue.head?

/-- Model of `peek_questions(count)` (read-only). -/
def peek_questions (s : QState) (count : Nat) : List Question :=
  s.queue.take count

/-- Model of `clear_queue` followed by `_reset_stats`. -/
def clear_queue (s : QState) : QState :=
  { s with
    queue := []
    answered_questions := []
    performance_history := []
    stats := ⟨0, 0, 0, ⟨0, 0, 0, 0⟩⟩ }

/-- Model of `shuffle_queue`; the `seed` parameter feeds the `random.shuffle`
model.  The source does not call `_update_stats` here. -/
def shuffle_queue (s : QState) (seed : List Nat) : QState :=
  { s with queue := shuffleWith seed s.queue }

/-- Model of `insert_at_position(question, position)`: out-of-range positions are
clamped to append-at-end. -/
def insert_at_position (s : QState) (question : Question) (position : Int) :
    QState :=
  let position : Nat :=
    if position < 0 ∨ position > (s.queue.length : Int) then s.queue.length
    else position.toNat
  let s := { s with
    queue := s.queue.take position ++ question :: s.queue.drop position
    stats := { s.stats with
      total_added := s.stats.total_added + 1
      difficulty_distribution :=
        bumpDist s.stats.difficulty_distribution question.difficulty } }
  update_stats s

/-- One public operation on the queue, for stating reachable-state
invariants.  The random draws consumed by `random.shuffle` are carried as
explicit data; the read-only operations (`peek_next_question`,
`peek_questions`, `get_queue_status`) do not change the state. -/
inductive QOp where
  | addQuestions (questions : List Question) (randomize : Bool) (seed : List Nat)
  | addPriority (question : Question) (priority : String)
  | insertAt (question : Question) (position : Int)
  | getNext
  | recordAnswer (question : Question) (is_correct : Bool) (time_taken : ℚ)
  | shuffle (seed : List Nat)
  | clear
  | peekNext
  | peekMany (count : Nat)
  | status

/-- Apply one public operation to the queue state. -/
def applyOp (s : QState) : QOp → QState
  | .addQuestions qs r seed => add_questions s qs r seed
  | .addPriority q p => add_question_priority s q p
  | .insertAt q pos => insert_at_position s q pos
  | .getNext => (get_next_question s).2
  | .recordAnswer q c t => record_answer s q c t
  | .shuffle seed => shuffle_queue s seed
  | .clear => clear_queue s
  | .peekNext => s
  | .peekMany _ => s
  | .status => s

/-- Run a sequence of public operations from a fresh queue. -/
def runOps (adaptive_mode : Bool) (ops : List QOp) : QState :=
  ops.foldl applyOp (initQueue adaptive_mode)

/- ------------------------------------------------------------------
   Question index tree (`backend/utils/tree_structure.py`)
   ------------------------------------------------------------------ -/

/-!
The Python `QuestionNode` is one generic class, but `add_question` only
ever builds the strict 4-level hierarchy root → subject → topic →
difficulty, with questions attached only to difficulty nodes (the spec's
documented invariant).  The embedding is stratified accordingly:
`children` dicts become insertion-ordered association lists, and the
always-empty question lists of root/subject/topic nodes are omitted.
-/

/-- A difficulty-level node: holds the questions attached there. -/
structure DiffNode where
  questions : List Question
deriving DecidableEq, Repr

/-- A topic node: children keyed by difficulty `.value` strings. -/
structure TopicNode where
  children : List (String × DiffNode)
deriving DecidableEq, Repr

/-- A subject node: children keyed by topic names. -/
structure SubjectNode where
  children : List (String × TopicNode)
deriving DecidableEq, Repr

/-- The `QuestionTree`: root children keyed by subject names, plus the
global `total_questions` counter (a Python int). -/
structure QTree where
  subjects : List (String × SubjectNode)
  total_questions : Int
deriving DecidableEq, Repr

/-- Empty `QuestionTree`. -/
def emptyTree : QTree := ⟨[], 0⟩

/-- Dict lookup by key (insertion-ordered association list). -/
def lookupA {α : Type} : List (String × α) → String → Option α
  | [], _ => none
  | (k, v) :: rest, key => if k = key then some v else lookupA rest key

/-- The navigate-or-create step of `add_question` at one level: if the
key is present, update that child in place; otherwise create the child
(`d`), append it (Python dicts append new keys at the end), and update
it. -/
def upsert {α : Type} (l : List (String × α)) (key : String) (d : α) (f : α → α) :
    List (String × α) :=
  match l with
  | [] => [(key, f d)]
  | (k, v) :: rest =>
    if k = key then (k, f v) :: rest else (k, v) :: upsert rest key d f

/-- Model of `add_question(question)`. -/
def add_question (t : QTree) (question : Question) : QTree :=
  { subjects :=
      upsert t.subjects question.subject ⟨[]⟩ (fun subject_node =>
        ⟨upsert subject_node.children question.topic ⟨[]⟩ (fun topic_node =>
          ⟨upsert topic_node.children (diffValue question.difficulty) ⟨[]⟩
            (fun difficulty_node =>
              ⟨difficulty_node.questions ++ [question]⟩)⟩)⟩)
    total_questions := t.total_questions + 1 }

/-- Model of `get_all_questions` on a topic node: concatenation over the
difficulty children in insertion order (topic nodes hold no questions of
their own). -/
def flattenTopic (tn : TopicNode) : List Question :=
  tn.children.flatMap (fun kv => kv.2.questions)

/-- Model of `get_all_questions` on a subject node. -/
def flattenSubject (sn : SubjectNode) : List Question :=
  sn.children.flatMap (fun kv => flattenTopic kv.2)

/-- Model of `get_all_questions` on the root (the root holds no questions). -/
def flattenTree (t : QTree) : List Question :=
  t.subjects.flatMap (fun kv => flattenSubject kv.2)

/-- A member of the heterogeneous `search_nodes` list built by
`get_questions_by_criteria`. -/
inductive SNode where
  | subj (n : SubjectNode)
  | top (n : TopicNode)
  | diff (n : DiffNode)

/-- Model of `node.get_all_questions()` on a search node. -/
def snodeQuestions : SNode → List Question
  | .subj n => flattenSubject n
  | .top n => flattenTopic n
  | .diff n => n.questions

/-- Model of `node.get_child(key)` on a search node (difficulty nodes have an
empty children dict). -/
def snodeGetChild (n : SNode) (key : String) : Option SNode :=
  match n with
  | .subj sn => (lookupA sn.children key).map .top
  | .top tn => (lookupA tn.children key).map .diff
  | .diff _ => none

/-- Stage 1 of `get_questions_by_criteria`: start from the given
subject's node (empty if absent) or from all subject nodes. -/
def criteriaStage1 (t : QTree) (subject : Option String) : List SNode :=
  match subject with
  | some s =>
    match lookupA t.subjects s with
    | none => []
    | some subject_node => [.subj subject_node]
  | none => t.subjects.map (fun kv => .subj kv.2)

/-- Stage 2: filter by topic if specified (`node.get_child(topic)`). -/
def criteriaStage2 (topic : Option String) (search_nodes : List SNode) :
    List SNode :=
  match topic with
  | none => search_nodes
  | some tp => search_nodes.filterMap (fun n => snodeGetChild n tp)

/-- Stage 3: filter by difficulty if specified; the source branches on
`node_type` ("topic" looks up the difficulty child, "subject" scans all
its topics, anything else contributes nothing). -/
def criteriaStage3 (difficulty : Option Difficulty) (search_nodes : List SNode) :
    List SNode :=
  match difficulty with
  | none => search_nodes
  | some d =>
    search_nodes.flatMap (fun n =>
      match n with
      | .top tn => ((lookupA tn.children (diffValue d)).map SNode.diff).toList
      | .subj sn =>
        sn.children.filterMap (fun kv =>
          (lookupA kv.2.children (diffValue d)).map SNode.diff)
      | .diff _ => [])

/-- The final `limit` truncation: `if limit and len(questions) > limit`,
so `limit=None` and `limit=0` (falsy) both skip truncation. -/
def applyLimit (limit : Option Nat) (questions : List Question) : List Question :=
  match limit with
  | none => questions
  | some l => if l ≠ 0 ∧ questions.length > l then questions.take l else questions

/-- Model of `get_questions_by_criteria(subject, topic, difficulty, limit)`. -/
def get_questions_by_criteria (t : QTree) (subject topic : Option String)
    (difficulty : Option Difficulty) (limit : Option Nat) : List Question :=
  let search_nodes := criteriaStage3 difficulty
    (criteriaStage2 topic (criteriaStage1 t subject))
  applyLimit limit (search_nodes.flatMap snodeQuestions)

/-- The fields of `get_statistics()` referenced by the claims
(`total_questions` and the subject count); the per-subject detail block
is not consulted by any claim. -/
structure TreeStats where
  total_questions : Int
  subjects : Nat
deriving DecidableEq, Repr

/-- Model of `get_statistics()`, with its error path: the per-topic
aggregation loop assigns into `topic_stats`, a name defined nowhere
(`tree_structure.py` line 177, the intended name is `subject_stats`), so
the method raises `NameError` — modelled as `none` — as soon as the
outer loop reaches a subject node with at least one topic child, i.e.
whenever any subject has a topic.  It returns normally only when every
subject has no topics (in practice, the empty tree); the returned value
is restricted to the claim-relevant fields. -/
def get_statistics (t : QTree) : Option TreeStats :=
  if t.subjects.any (fun kv => ! kv.2.children.isEmpty) then none
  else some ⟨t.total_questions, t.subjects.length⟩

/-- The question-list scan of `search_and_remove`: pop the first question
whose stringified id equals `question_id`. -/
def removeFromQuestions (question_id : String) :
    List Question → Bool × List Question
  | [] => (false, [])
  | q :: rest =>
    if q.id = question_id then (true, rest)
    else
      let r := removeFromQuestions question_id rest
      (r.1, q :: r.2)

/-- The child-dict scan of `search_and_remove`: recurse into children in
insertion order, stopping at the first success. -/
def removeFromChildren {α : Type} (f : String → α → Bool × α)
    (question_id : String) : List (String × α) → Bool × List (String × α)
  | [] => (false, [])
  | (k, v) :: rest =>
    let r := f question_id v
    if r.1 then (true, (k, r.2) :: rest)
    else
      let r2 := removeFromChildren f question_id rest
      (r2.1, (k, v) :: r2.2)

/-- Model of `search_and_remove` on a difficulty node. -/
def removeFromDiff (question_id : String) (dn : DiffNode) : Bool × DiffNode :=
  let r := removeFromQuestions question_id dn.questions
  (r.1, ⟨r.2⟩)

/-- Model of `search_and_remove` on a topic node (its own question list is always
empty, so only the children are scanned). -/
def removeFromTopic (question_id : String) (tn : TopicNode) : Bool × TopicNode :=
  let r := removeFromChildren removeFromDiff question_id tn.children
  (r.1, ⟨r.2⟩)

/-- Model of `search_and_remove` on a subject node. -/
def removeFromSubject (question_id : String) (sn : SubjectNode) :
    Bool × SubjectNode :=
  let r := removeFromChildren removeFromTopic question_id sn.children
  (r.1, ⟨r.2⟩)

/-- Model of `remove_question(question_id)`: returns the success flag and the new
tree; `total_questions` is decremented exactly when a question was
removed (the source decrements at the match site). -/
def remove_question (t : QTree) (question_id : String) : Bool × QTree :=
  let r := removeFromChildren removeFromSubject question_id t.subjects
  (r.1, { subjects := r.2
          total_questions :=
            if r.1 then t.total_questions - 1 else t.total_questions })

/-- Spec-modelled trend factor, following the words of claim C5. -/
def spec_trend_factor (performance_history : Option (List ℚ)) : ℚ :=
  let h := performance_history.getD []
  if h.length < 3 then 1
  else
    let last3 := h.drop (h.length - 3)
    max (1/2) (min (3/2) (1 + (last3.getLastD 0 - last3.headD 0) / 2))

/-- Spec-side candidate value from claim C1's words:
`efficiency[perf_category][level] - transition_cost(level - current_level)
+ 0.1 * trend_factor`, with trend factor 1 (no history). -/
def spec_candidate_value (perf_category current_level candidate : Nat) : ℚ :=
  efficiency_matrix perf_category candidate
    - transition_costs ((candidate : Int) - (current_level : Int))
    + (1/10) * 1

/-- Spec-side selection from claim C1's words: among candidate levels
0..3 evaluated in ascending order, the earliest level attaining the
maximum value (first occurrence wins under a strict `>` comparison). -/
def spec_optimal_level (perf_category current_level : Nat) : Nat :=
  (([0, 1, 2, 3] : List Nat).find? (fun l =>
    ([0, 1, 2, 3] : List Nat).all (fun l2 =>
      spec_candidate_value perf_category current_level l2 ≤
        spec_candidate_value perf_category current_level l))).getD current_level

/-- Build a tree by a sequence of `add_question` calls. -/
def buildTree (qs : List Question) : QTree :=
  qs.foldl add_question emptyTree

/-- Distinct values of `g` over a question sequence, in order of first
occurrence — the order in which Python dicts acquire new keys. -/
def keysInOrder (g : Question → String) (qs : List Question) : List String :=
  qs.foldl (fun acc q => if g q ∈ acc then acc else acc ++ [g q]) []

/-- Spec-side order from amended claim C3's words, innermost level:
questions grouped by difficulty bucket, buckets in first-occurrence
order, questions within a bucket in insertion order. -/
def specDiffOrder (qs : List Question) : List Question :=
  (keysInOrder (fun q => diffValue q.difficulty) qs).flatMap
    (fun dv => qs.filter (fun q => diffValue q.difficulty = dv))

/-- Spec-side order, topic level: topics in first-occurrence order, each
topic's questions in difficulty-bucket order. -/
def specTopicOrder (qs : List Question) : List Question :=
  (keysInOrder (fun q => q.topic) qs).flatMap
    (fun tp => specDiffOrder (qs.filter (fun q => q.topic = tp)))

/-- Spec-side hierarchical traversal order from amended claim C3's
words: grouped by subject, then topic, then difficulty, groups in
first-occurrence order and questions within each group in insertion
order. -/
def specTraversalOrder (qs : List Question) : List Question :=
  (keysInOrder (fun q => q.subject) qs).flatMap
    (fun s => specTopicOrder (qs.filter (fun q => q.subject = s)))

/-- One level of the correspondence between a tree node's children dict
and the question sequence it was built from: the keys are the `g`-values
in first-occurrence order, and each child represents the questions with
its key. -/
def reprAssoc {α : Type} (g : Question → String) (R : α → List Question → Prop)
    (l : List (String × α)) (qs : List Question) : Prop :=
  l.map Prod.fst = keysInOrder g qs ∧
  ∀ p ∈ l, R p.2 (qs.filter (fun q => g q = p.1))

/-- A topic node represents a question sequence: difficulty buckets in
first-occurrence order, each holding exactly its questions in order. -/
def reprTopic (tn : TopicNode) (qs : List Question) : Prop :=
  reprAssoc (fun q => diffValue q.difficulty)
    (fun dn qs2 => dn.questions = qs2) tn.children qs

/-- A subject node represents a question sequence. -/
def reprSubject (sn : SubjectNode) (qs : List Question) : Prop :=
  reprAssoc (fun q => q.topic) reprTopic sn.children qs

/-- The whole tree represents the insertion sequence. -/
def reprTree (t : QTree) (qs : List Question) : Prop :=
  reprAssoc (fun q => q.subject) reprSubject t.subjects qs

/-- Concrete questions used to refute the insertion-order part of C3:
subjects interleave (A, B, A), so tree traversal groups by subject. -/
def cq1 : Question := ⟨"q1", "SubjA", "Topic", .beginner⟩

/-- Second counterexample question (subject B). -/
def cq2 : Question := ⟨"q2", "SubjB", "Topic", .beginner⟩

/-- Third counterexample question (subject A again). -/
def cq3 : Question := ⟨"q3", "SubjA", "Topic", .beginner⟩

/-- Claim C8's invariant: the rolling performance history holds at most
10 entries, each 1.0 or 0.0. -/
def history_invariant (s : QState) : Prop :=
  s.performance_history.length ≤ 10 ∧
  ∀ x ∈ s.performance_history, x = 1 ∨ x = 0

/-- Claim C10's invariant relating the cached size, the deque length and
the served/added counters. -/
def size_invariant (s : QState) : Prop :=
  s.stats.current_size = (s.queue.length : Int) ∧
  s.stats.current_size = s.stats.total_added - s.stats.total_served

/-- Witness questions for the C2 scenario (beginner, advanced,
intermediate, beginner in insertion order). -/
def wq1 : Question := ⟨"w1", "Math", "Algebra", .beginner⟩

/-- Advanced question in the C2 scenario queue. -/
def wq2 : Question := ⟨"w2", "Math", "Algebra", .advanced⟩

/-- Intermediate question in the C2 scenario queue. -/
def wq3 : Question := ⟨"w3", "Math", "Algebra", .intermediate⟩

/-- Second beginner question in the C2 scenario queue. -/
def wq4 : Question := ⟨"w4", "Math", "Algebra", .beginner⟩

/-- The C2 scenario state: the four questions enqueued without
randomization, then three correct answers recorded (history [1,1,1],
mean 1, current difficulty beginner, so the optimizer recommends
beginner). -/
def C2_state : QState :=
  runOps true
    [QOp.addQuestions [wq1, wq2, wq3, wq4] false [],
      QOp.recordAnswer wq1 true 1,
      QOp.recordAnswer wq1 true 1,
      QOp.recordAnswer wq1 true 1]

/-- Claim C5: the trend factor used by the optimizer equals exactly 1
whenever the performance history is absent or has fewer than 3 entries,
and otherwise equals 1 + (last - first)/2 over the last 3 entries,
clamped to [1/2, 3/2] — shown as equality between the factor used at the
call site and the spec-modelled `spec_trend_factor`. -/
theorem C5_trend : ∀ h, used_trend_factor h = spec_trend_factor h := by
  intro h
  cases h with
  | none => rfl
  | some l =>
    show (if l = [] then 1 else calculate_trend_factor l) = _
    by_cases hl : l = []
    · subst hl; rfl
    · rw [if_neg hl]
      simp only [calculate_trend_factor, spec_trend_factor, Option.getD_some]
      by_cases h3 : l.length < 3
      · simp [h3]
      · have hdrop : (l.drop (l.length - 3)).length = 3 := by
          rw [List.length_drop]; omega
        rw [if_neg h3, if_neg h3, hdrop]
        norm_num

lemma transition_loop_aux_shift (c cur : Nat) (t d : ℚ) :
    ∀ (ls : List Nat) (m : Option ℚ) (b : Nat),
      transition_loop_aux c cur (t + d) ls
        (Option.map (fun x => x + d * (1/10)) m, b) =
      (Option.map (fun x => x + d * (1/10))
          (transition_loop_aux c cur t ls (m, b)).1,
        (transition_loop_aux c cur t ls (m, b)).2) := by
  intro ls
  induction ls with
  | nil => intro m b; rfl
  | cons l rest ih =>
    intro m b
    have hv : efficiency_matrix c l - transition_costs ((l : Int) - (cur : Int))
          + (t + d) * (1/10)
        = (efficiency_matrix c l - transition_costs ((l : Int) - (cur : Int))
          + t * (1/10)) + d * (1/10) := by ring
    cases m with
    | none =>
      simp only [transition_loop_aux, Option.map_none', hv]
      exact ih (some _) l
    | some m0 =>
      simp only [transition_loop_aux, Option.map_some', hv, add_lt_add_iff_right]
      by_cases hlt : m0 < efficiency_matrix c l
          - transition_costs ((l : Int) - (cur : Int)) + t * (1/10)
      · rw [if_pos hlt, if_pos hlt]
        exact ih (some _) l
      · rw [if_neg hlt, if_neg hlt]
        exact ih (some m0) b

lemma calculate_optimal_transition_history_free (cur : Nat) (s : ℚ)
    (h : Option (List ℚ)) :
    calculate_optimal_transition cur s h = calculate_optimal_transition cur s none := by
  show (transition_loop_aux (get_performance_category s) cur (used_trend_factor h)
      [0, 1, 2, 3] (none, cur)).2 =
    (transition_loop_aux (get_performance_category s) cur (used_trend_factor none)
      [0, 1, 2, 3] (none, cur)).2
  have key := transition_loop_aux_shift (get_performance_category s) cur
    (used_trend_factor none) (used_trend_factor h - used_trend_factor none)
    [0, 1, 2, 3] none cur
  simp only [Option.map_none'] at key
  have ht : used_trend_factor none + (used_trend_factor h - used_trend_factor none)
      = used_trend_factor h := by ring
  rw [ht] at key
  rw [key]

/-- Claim C9: the difficulty returned by `get_optimal_next_difficulty`
is independent of the `performance_history` argument even on a cache
miss — both `_calculate_optimal_transition` and the full call return the
same result for any two histories, because the trend term shifts every
candidate's value uniformly. -/
theorem C9_history_independent :
    ∀ (cache : List ((Nat × ℚ) × Nat)) (d : Difficulty) (s : ℚ)
      (h1 h2 : Option (List ℚ)),
      (calculate_optimal_transition (difficulty_map d) s h1 =
        calculate_optimal_transition (difficulty_map d) s h2) ∧
      get_optimal_next_difficulty cache d s h1 =
        get_optimal_next_difficulty cache d s h2 := by
  intro cache d s h1 h2
  constructor
  · rw [calculate_optimal_transition_history_free _ _ h1,
      calculate_optimal_transition_history_free _ _ h2]
  · unfold get_optimal_next_difficulty
    cases hcl : cacheLookup cache (difficulty_map d, round2 s) with
    | some v => simp [hcl]
    | none =>
      simp only [hcl]
      rw [calculate_optimal_transition_history_free _ _ h1,
        calculate_optimal_transition_history_free _ _ h2]

lemma cacheLookup_append_self (cache : List ((Nat × ℚ) × Nat)) (k : Nat × ℚ) (v : Nat)
    (h : cacheLookup cache k = none) :
    cacheLookup (cache ++ [(k, v)]) k = some v := by
  induction cache with
  | nil => simp [cacheLookup]
  | cons kv rest ih =>
    cases kv with
    | mk k1 v1 =>
      by_cases hk : k1 = k
      · rw [show cacheLookup ((k1, v1) :: rest) k = if k1 = k then some v1
            else cacheLookup rest k from rfl, if_pos hk] at h
        exact absurd h (by simp)
      · rw [show ((k1, v1) :: rest) ++ [(k, v)] =
            (k1, v1) :: (rest ++ [(k, v)]) from rfl,
          show cacheLookup ((k1, v1) :: (rest ++ [(k, v)])) k =
            if k1 = k then some v1 else cacheLookup (rest ++ [(k, v)]) k from rfl,
          if_neg hk]
        rw [show cacheLookup ((k1, v1) :: rest) k = if k1 = k then some v1
            else cacheLookup rest k from rfl, if_neg hk] at h
        exact ih h

/-- Claim C4: `get_optimal_next_difficulty` is deterministic — calling
it twice with the same `(current_difficulty, performance_score)` and no
history returns the identical difficulty, and the second call leaves the
memoization cache exactly as the first call left it (the cache does not
grow, because the second call is served from it). -/
theorem C4_deterministic_cached :
    ∀ (cache : List ((Nat × ℚ) × Nat)) (d : Difficulty) (s : ℚ),
      (get_optimal_next_difficulty
          (get_optimal_next_difficulty cache d s none).2 d s none).1 =
        (get_optimal_next_difficulty cache d s none).1 ∧
      (get_optimal_next_difficulty
          (get_optimal_next_difficulty cache d s none).2 d s none).2 =
        (get_optimal_next_difficulty cache d s none).2 := by
  intro cache d s
  unfold get_optimal_next_difficulty
  cases hcl : cacheLookup cache (difficulty_map d, round2 s) with
  | some v => simp [hcl]
  | none =>
    simp only [hcl]
    rw [cacheLookup_append_self cache _ _ hcl]
    exact ⟨rfl, rfl⟩

lemma perf_category_cases (s : ℚ) :
    get_performance_category s = 0 ∨ get_performance_category s = 1 ∨
    get_performance_category s = 2 ∨ get_performance_category s = 3 := by
  unfold get_performance_category
  split_ifs <;> simp

lemma loop_eq_spec (c cur : Nat) (hc : c < 4) (hcur : cur < 4) :
    (transition_loop_aux c cur 1 [0, 1, 2, 3] (none, cur)).2 =
      spec_optimal_level c cur := by
  interval_cases c <;> interval_cases cur <;> with_unfolding_all decide

/-- Claim C1: on a fresh (empty) cache, with no history,
`get_optimal_next_difficulty` returns the difficulty whose ordinal
level, among candidates 0..3 evaluated in ascending order, maximizes
`efficiency[category][level] - transition_cost(level - current) +
0.1 * trend_factor` (trend factor 1), ties resolved in favour of the
lowest level — shown against the spec-modelled `spec_optimal_level`. -/
theorem C1_optimal_next (d : Difficulty) (s : ℚ) :
    (get_optimal_next_difficulty [] d s none).1 =
      reverse_difficulty_map
        (spec_optimal_level (get_performance_category s) (difficulty_map d)) := by
  show reverse_difficulty_map
      (calculate_optimal_transition (difficulty_map d) s none) = _
  have hbody : calculate_optimal_transition (difficulty_map d) s none =
      (transition_loop_aux (get_performance_category s) (difficulty_map d) 1
        [0, 1, 2, 3] (none, difficulty_map d)).2 := rfl
  rw [hbody, loop_eq_spec _ _ ?_ ?_]
  · rcases perf_category_cases s with h | h | h | h <;> omega
  · cases d <;> simp [difficulty_map]

lemma flatMap_upsert_perm {α : Type} (g : α → List Question) (key : String)
    (d : α) (f : α → α) (q : Question)
    (hf : ∀ v, List.Perm (g (f v)) (g v ++ [q])) (hd : g d = []) :
    ∀ l : List (String × α),
      List.Perm ((upsert l key d f).flatMap (fun kv => g kv.2))
        (l.flatMap (fun kv => g kv.2) ++ [q]) := by
  intro l
  induction l with
  | nil =>
    have h1 := hf d
    rw [hd] at h1
    simpa [upsert] using h1
  | cons kv rest ih =>
    cases kv with
    | mk k v =>
      by_cases hk : k = key
      · simp only [upsert, if_pos hk, List.flatMap_cons]
        have h1 : List.Perm (g (f v) ++ rest.flatMap (fun kv => g kv.2))
            ((g v ++ [q]) ++ rest.flatMap (fun kv => g kv.2)) :=
          (hf v).append_right _
        have h2 : List.Perm ((g v ++ [q]) ++ rest.flatMap (fun kv => g kv.2))
            ((g v ++ rest.flatMap (fun kv => g kv.2)) ++ [q]) := by
          rw [List.append_assoc, List.append_assoc]
          exact List.Perm.append_left _ List.perm_append_comm
        exact h1.trans h2
      · simp only [upsert, if_neg hk, List.flatMap_cons]
        have h1 : List.Perm
            (g v ++ (upsert rest key d f).flatMap (fun kv => g kv.2))
            (g v ++ (rest.flatMap (fun kv => g kv.2) ++ [q])) :=
          List.Perm.append_left _ ih
        rw [← List.append_assoc] at h1
        exact h1

lemma flattenTree_add (t : QTree) (q : Question) :
    List.Perm (flattenTree (add_question t q)) (flattenTree t ++ [q]) := by
  have hdiff : ∀ tn : TopicNode,
      List.Perm
        (flattenTopic ⟨upsert tn.children (diffValue q.difficulty) ⟨[]⟩
          (fun difficulty_node => ⟨difficulty_node.questions ++ [q]⟩)⟩)
        (flattenTopic tn ++ [q]) := by
    intro tn
    exact flatMap_upsert_perm (fun dn => dn.questions) (diffValue q.difficulty)
      ⟨[]⟩ (fun difficulty_node => ⟨difficulty_node.questions ++ [q]⟩) q
      (fun _ => List.Perm.refl _) rfl tn.children
  have htopic : ∀ sn : SubjectNode,
      List.Perm
        (flattenSubject ⟨upsert sn.children q.topic ⟨[]⟩ (fun topic_node =>
          ⟨upsert topic_node.children (diffValue q.difficulty) ⟨[]⟩
            (fun difficulty_node => ⟨difficulty_node.questions ++ [q]⟩)⟩)⟩)
        (flattenSubject sn ++ [q]) := by
    intro sn
    exact flatMap_upsert_perm flattenTopic q.topic ⟨[]⟩ _ q
      (fun tn => hdiff tn) rfl sn.children
  exact flatMap_upsert_perm flattenSubject q.subject ⟨[]⟩ _ q
    (fun sn => htopic sn) rfl t.subjects

lemma buildTree_total (qs : List Question) :
    ∀ t : QTree, (qs.foldl add_question t).total_questions =
      t.total_questions + qs.length := by
  induction qs with
  | nil => intro t; simp
  | cons q rest ih =>
    intro t
    simp only [List.foldl_cons, ih (add_question t q), List.length_cons]
    show t.total_questions + 1 + (rest.length : Int) = _
    push_cast
    ring

lemma buildTree_flatten_perm (qs : List Question) :
    ∀ t : QTree, List.Perm (flattenTree (qs.foldl add_question t))
      (flattenTree t ++ qs) := by
  induction qs with
  | nil => intro t; simp
  | cons q rest ih =>
    intro t
    have h1 : List.Perm (flattenTree (rest.foldl add_question (add_question t q)))
        (flattenTree (add_question t q) ++ rest) := ih _
    have h2 : List.Perm (flattenTree (add_question t q) ++ rest)
        ((flattenTree t ++ [q]) ++ rest) := (flattenTree_add t q).append_right _
    have h3 : (flattenTree t ++ [q]) ++ rest = flattenTree t ++ (q :: rest) := by
      simp
    exact (h1.trans h2).trans (h3 ▸ List.Perm.refl _)

lemma query_no_filter_eq_flatten (t : QTree) :
    get_questions_by_criteria t none none none none = flattenTree t := by
  show (t.subjects.map (fun kv => SNode.subj kv.2)).flatMap snodeQuestions = _
  rw [List.flatMap_map]
  rfl

/-- Appending one question extends the first-occurrence key list at the
end exactly when its key is new. -/
lemma keysInOrder_append_one (g : Question → String) (qs : List Question)
    (q : Question) :
    keysInOrder g (qs ++ [q]) =
      (if g q ∈ keysInOrder g qs then keysInOrder g qs
        else keysInOrder g qs ++ [g q]) := by
  unfold keysInOrder
  rw [List.foldl_append]
  rfl

/-- Membership in the foldl underlying `keysInOrder`. -/
lemma mem_keysInOrder_foldl (g : Question → String) :
    ∀ (qs : List Question) (acc : List String) (b : String),
      (b ∈ qs.foldl (fun acc2 q => if g q ∈ acc2 then acc2 else acc2 ++ [g q]) acc
        ↔ b ∈ acc ∨ ∃ x ∈ qs, g x = b) := by
  intro qs
  induction qs with
  | nil => intro acc b; simp
  | cons x rest ih =>
    intro acc b
    rw [List.foldl_cons, ih]
    by_cases hx : g x ∈ acc
    · rw [if_pos hx]
      constructor
      · rintro (hb | hb)
        · exact Or.inl hb
        · exact Or.inr ⟨_, by simp [hb.choose_spec], hb.choose_spec.2⟩
      · rintro (hb | ⟨y, hy, hgy⟩)
        · exact Or.inl hb
        · rcases List.mem_cons.1 hy with rfl | hy2
          · exact Or.inl (hgy ▸ hx)
          · exact Or.inr ⟨y, hy2, hgy⟩
    · rw [if_neg hx]
      constructor
      · rintro (hb | hb)
        · rcases List.mem_append.1 hb with hb1 | hb2
          · exact Or.inl hb1
          · exact Or.inr ⟨x, List.mem_cons_self x rest,
              (List.mem_singleton.1 hb2).symm⟩
        · obtain ⟨y, hy, hgy⟩ := hb
          exact Or.inr ⟨y, List.mem_cons_of_mem _ hy, hgy⟩
      · rintro (hb | ⟨y, hy, hgy⟩)
        · exact Or.inl (List.mem_append.2 (Or.inl hb))
        · rcases List.mem_cons.1 hy with rfl | hy2
          · exact Or.inl (List.mem_append.2 (Or.inr (by simp [hgy])))
          · exact Or.inr ⟨y, hy2, hgy⟩

/-- A value appears in `keysInOrder` exactly when some question carries
it. -/
lemma mem_keysInOrder (g : Question → String) (qs : List Question)
    (b : String) :
    b ∈ keysInOrder g qs ↔ ∃ x ∈ qs, g x = b := by
  rw [keysInOrder, mem_keysInOrder_foldl]
  simp

/-- First-occurrence key lists have no duplicates. -/
lemma keysInOrder_nodup (g : Question → String) (qs : List Question) :
    (keysInOrder g qs).Nodup := by
  have hgen : ∀ (l : List Question) (acc : List String), acc.Nodup →
      (l.foldl (fun acc2 q => if g q ∈ acc2 then acc2 else acc2 ++ [g q])
        acc).Nodup := by
    intro l
    induction l with
    | nil => intro acc h; exact h
    | cons x rest ih =>
      intro acc h
      rw [List.foldl_cons]
      apply ih
      by_cases hx : g x ∈ acc
      · rw [if_pos hx]; exact h
      · rw [if_neg hx]
        rw [← List.concat_eq_append]
        exact h.concat hx
  exact hgen qs [] List.nodup_nil

/-- No question carries a key outside `keysInOrder`. -/
lemma filter_eq_nil_of_not_mem_keys (g : Question → String)
    (qs : List Question) (k : String) (h : k ∉ keysInOrder g qs) :
    qs.filter (fun x => g x = k) = [] := by
  rw [List.filter_eq_nil_iff]
  intro x hx hpx
  exact h ((mem_keysInOrder g qs k).2 ⟨x, hx, by simpa using hpx⟩)

/-- Keys of an upserted dict: unchanged when the key exists, appended
otherwise. -/
lemma upsert_map_fst {α : Type} (l : List (String × α)) (k : String)
    (d : α) (f : α → α) :
    (upsert l k d f).map Prod.fst =
      (if k ∈ l.map Prod.fst then l.map Prod.fst
        else l.map Prod.fst ++ [k]) := by
  induction l with
  | nil => simp [upsert]
  | cons kv rest ih =>
    cases kv with
    | mk k1 v1 =>
      by_cases hk : k1 = k
      · subst hk
        simp [upsert]
      · simp only [upsert, if_neg hk, List.map_cons, ih]
        by_cases hmem : k ∈ rest.map Prod.fst
        · rw [if_pos hmem,
            if_pos (by simp only [List.map_cons, List.mem_cons]; exact Or.inr hmem)]
        · rw [if_neg hmem,
            if_neg (by
              simp only [List.map_cons, List.mem_cons]
              rintro (h1 | h2)
              · exact hk h1.symm
              · exact hmem h2)]
          simp

/-- Membership in an upserted dict with duplicate-free keys: an entry
either kept a different key unchanged, or holds the updated value at the
upserted key (updating the unique old entry, or a fresh default). -/
lemma upsert_mem {α : Type} {l : List (String × α)} {k : String} {d : α}
    {f : α → α} (hnd : (l.map Prod.fst).Nodup) :
    ∀ p ∈ upsert l k d f,
      (p.1 ≠ k ∧ p ∈ l) ∨
      (∃ v, (k, v) ∈ l ∧ p = (k, f v)) ∨
      (k ∉ l.map Prod.fst ∧ p = (k, f d)) := by
  induction l with
  | nil =>
    intro p hp
    simp only [upsert, List.mem_singleton] at hp
    exact Or.inr (Or.inr ⟨by simp, hp⟩)
  | cons kv rest ih =>
    intro p hp
    cases kv with
    | mk k1 v1 =>
      have hnd2 : (rest.map Prod.fst).Nodup := (List.nodup_cons.1 hnd).2
      have hk1r : k1 ∉ rest.map Prod.fst := (List.nodup_cons.1 hnd).1
      by_cases hk : k1 = k
      · subst hk
        simp only [upsert, eq_self_iff_true, if_true, List.mem_cons] at hp
        rcases hp with hpe | hp2
        · exact Or.inr (Or.inl ⟨v1, List.mem_cons_self _ _, hpe⟩)
        · have hp1 : p.1 ≠ k1 := by
            intro h1
            exact hk1r (h1 ▸ List.mem_map.2 ⟨p, hp2, rfl⟩)
          exact Or.inl ⟨hp1, List.mem_cons_of_mem _ hp2⟩
      · simp only [upsert, if_neg hk, List.mem_cons] at hp
        rcases hp with hpe | hp2
        · refine Or.inl ⟨?_, ?_⟩
          · rw [hpe]
            intro h1
            exact hk h1
          · rw [hpe]
            exact List.mem_cons_self _ _
        · rcases ih hnd2 p hp2 with ⟨hne, hmem⟩ | ⟨v, hv, hpv⟩ | ⟨hnm, hpd⟩
          · exact Or.inl ⟨hne, List.mem_cons_of_mem _ hmem⟩
          · exact Or.inr (Or.inl ⟨v, List.mem_cons_of_mem _ hv, hpv⟩)
          · refine Or.inr (Or.inr ⟨?_, hpd⟩)
            simp only [List.map_cons, List.mem_cons]
            rintro (h1 | h2)
            · exact hk h1.symm
            · exact hnm h2

/-- The generic per-level step: upserting the new question's key
preserves the dict-to-sequence correspondence, provided the payload
update does at the next level down. -/
lemma reprAssoc_upsert {α : Type} (g : Question → String)
    (R : α → List Question → Prop) (l : List (String × α))
    (qs : List Question) (q : Question) (d : α) (f : α → α)
    (hrepr : reprAssoc g R l qs)
    (hstep : ∀ (v : α) (qs2 : List Question), R v qs2 → R (f v) (qs2 ++ [q]))
    (hbase : R d []) :
    reprAssoc g R (upsert l (g q) d f) (qs ++ [q]) := by
  obtain ⟨hkeys, hmem⟩ := hrepr
  have hnd : (l.map Prod.fst).Nodup := by
    rw [hkeys]; exact keysInOrder_nodup g qs
  constructor
  · rw [upsert_map_fst, keysInOrder_append_one, hkeys]
  · intro p hp
    rcases upsert_mem hnd p hp with ⟨hne, hpl⟩ | ⟨v, hvl, rfl⟩ | ⟨hnm, rfl⟩
    · have hfilter : (qs ++ [q]).filter (fun x => g x = p.1) =
          qs.filter (fun x => g x = p.1) := by
        rw [List.filter_append]
        have h1 : [q].filter (fun x => g x = p.1) = [] := by
          simp only [List.filter_cons, List.filter_nil]
          rw [if_neg (by simpa using fun h2 => hne h2.symm)]
        rw [h1, List.append_nil]
      rw [hfilter]
      exact hmem p hpl
    · have hfilter : (qs ++ [q]).filter (fun x => g x = (g q, f v).1) =
          qs.filter (fun x => g x = g q) ++ [q] := by
        rw [List.filter_append]
        simp
      rw [hfilter]
      exact hstep v _ (hmem (g q, v) hvl)
    · have hqs : qs.filter (fun x => g x = g q) = [] :=
        filter_eq_nil_of_not_mem_keys g qs (g q) (hkeys ▸ hnm)
      have hfilter : (qs ++ [q]).filter (fun x => g x = (g q, f d).1) = [q] := by
        rw [List.filter_append, hqs]
        simp
      rw [hfilter]
      have h0 := hstep d [] hbase
      simpa using h0

/-- The empty node represents the empty sequence, at every level. -/
lemma reprTopic_nil : reprTopic ⟨[]⟩ [] :=
  ⟨rfl, by intro p hp; exact absurd hp (by simp)⟩

/-- The empty subject node represents the empty sequence. -/
lemma reprSubject_nil : reprSubject ⟨[]⟩ [] :=
  ⟨rfl, by intro p hp; exact absurd hp (by simp)⟩

/-- Topic-level step of `add_question`. -/
lemma reprTopic_add (tn : TopicNode) (qs : List Question) (q : Question)
    (h : reprTopic tn qs) :
    reprTopic ⟨upsert tn.children (diffValue q.difficulty) ⟨[]⟩
      (fun difficulty_node => ⟨difficulty_node.questions ++ [q]⟩)⟩
      (qs ++ [q]) := by
  apply reprAssoc_upsert _ _ _ _ q _ _ h _ rfl
  intro dn qs2 h2
  show dn.questions ++ [q] = qs2 ++ [q]
  rw [h2]

/-- Subject-level step of `add_question`. -/
lemma reprSubject_add (sn : SubjectNode) (qs : List Question) (q : Question)
    (h : reprSubject sn qs) :
    reprSubject ⟨upsert sn.children q.topic ⟨[]⟩ (fun topic_node =>
      ⟨upsert topic_node.children (diffValue q.difficulty) ⟨[]⟩
        (fun difficulty_node => ⟨difficulty_node.questions ++ [q]⟩)⟩)⟩
      (qs ++ [q]) := by
  apply reprAssoc_upsert _ _ _ _ q _ _ h _ reprTopic_nil
  intro tn qs2 h2
  exact reprTopic_add tn qs2 q h2

/-- Tree-level step: `add_question` preserves the correspondence. -/
lemma reprTree_add (t : QTree) (qs : List Question) (q : Question)
    (h : reprTree t qs) :
    reprTree (add_question t q) (qs ++ [q]) := by
  apply reprAssoc_upsert _ _ _ _ q _ _ h _ reprSubject_nil
  intro sn qs2 h2
  exact reprSubject_add sn qs2 q h2

/-- A tree built by `add_question` calls represents exactly the
insertion sequence. -/
lemma reprTree_buildTree (qs : List Question) : reprTree (buildTree qs) qs := by
  have hgen : ∀ (rest : List Question) (t : QTree) (qs0 : List Question),
      reprTree t qs0 → reprTree (rest.foldl add_question t) (qs0 ++ rest) := by
    intro rest
    induction rest with
    | nil => intro t qs0 h; simpa using h
    | cons q rest2 ih =>
      intro t qs0 h
      have h2 := ih (add_question t q) (qs0 ++ [q]) (reprTree_add t qs0 q h)
      rw [List.foldl_cons]
      have he : qs0 ++ [q] ++ rest2 = qs0 ++ q :: rest2 := by simp
      rw [← he]
      exact h2
  have h0 : reprTree emptyTree [] :=
    ⟨rfl, by intro p hp; exact absurd hp (by simp [emptyTree])⟩
  simpa using hgen qs emptyTree [] h0

/-- Flat-map over a children dict rewritten through its key list. -/
lemma flatMap_eq_keys {α : Type} (l : List (String × α))
    (h : α → List Question) (h2 : String → List Question)
    (hcong : ∀ p ∈ l, h p.2 = h2 p.1) :
    l.flatMap (fun p => h p.2) = (l.map Prod.fst).flatMap h2 := by
  induction l with
  | nil => rfl
  | cons kv rest ih =>
    simp only [List.flatMap_cons, List.map_cons]
    rw [hcong kv (List.mem_cons_self _ _),
      ih (fun p hp => hcong p (List.mem_cons_of_mem _ hp))]

/-- A topic node's question traversal equals the spec-side
difficulty-bucket order of the sequence it represents. -/
lemma flattenTopic_of_repr (tn : TopicNode) (qs : List Question)
    (h : reprTopic tn qs) : flattenTopic tn = specDiffOrder qs := by
  obtain ⟨hk, hm⟩ := h
  unfold flattenTopic specDiffOrder
  rw [flatMap_eq_keys tn.children (fun dn => dn.questions)
    (fun dv => qs.filter (fun x => diffValue x.difficulty = dv)) hm, hk]

/-- A subject node's question traversal equals the spec-side topic
order of the sequence it represents. -/
lemma flattenSubject_of_repr (sn : SubjectNode) (qs : List Question)
    (h : reprSubject sn qs) : flattenSubject sn = specTopicOrder qs := by
  obtain ⟨hk, hm⟩ := h
  unfold flattenSubject specTopicOrder
  rw [flatMap_eq_keys sn.children flattenTopic
    (fun tp => specDiffOrder (qs.filter (fun x => x.topic = tp)))
    (fun p hp => flattenTopic_of_repr p.2 _ (hm p hp)), hk]

/-- The tree traversal equals the spec-side hierarchical order of the
insertion sequence. -/
lemma flattenTree_of_repr (t : QTree) (qs : List Question)
    (h : reprTree t qs) : flattenTree t = specTraversalOrder qs := by
  obtain ⟨hk, hm⟩ := h
  unfold flattenTree specTraversalOrder
  rw [flatMap_eq_keys t.subjects flattenSubject
    (fun s => specTopicOrder (qs.filter (fun x => x.subject = s)))
    (fun p hp => flattenSubject_of_repr p.2 _ (hm p hp)), hk]

/-- Statistics on a built tree: normal return (with zero counts) only on
the empty insertion sequence, `NameError` (`none`) otherwise. -/
lemma get_statistics_buildTree (qs : List Question) :
    get_statistics (buildTree qs) =
      (if qs = [] then some ⟨0, 0⟩ else none) := by
  cases hqs : qs with
  | nil => rfl
  | cons x rest =>
    rw [if_neg (by simp)]
    unfold get_statistics
    rw [if_pos ?hraise]
    case hraise =>
      obtain ⟨hkeys, hmem⟩ := reprTree_buildTree (x :: rest)
      have hxs : x.subject ∈ keysInOrder (fun q => q.subject) (x :: rest) :=
        (mem_keysInOrder _ _ _).2 ⟨x, List.mem_cons_self _ _, rfl⟩
      rw [← hkeys] at hxs
      obtain ⟨p, hp, hfst⟩ := List.mem_map.1 hxs
      obtain ⟨hk2, _⟩ := hmem p hp
      have hxf : x ∈ (x :: rest).filter (fun q => q.subject = p.1) :=
        List.mem_filter.2 ⟨List.mem_cons_self _ _, by simp [hfst]⟩
      have hxt : x.topic ∈ keysInOrder (fun q => q.topic)
          ((x :: rest).filter (fun q => q.subject = p.1)) :=
        (mem_keysInOrder _ _ _).2 ⟨x, hxf, rfl⟩
      rw [← hk2] at hxt
      apply List.any_eq_true.2
      refine ⟨p, hp, ?_⟩
      have hne : p.2.children ≠ [] := by
        intro h0
        rw [h0] at hxt
        simp at hxt
      simp [List.isEmpty_iff, hne]

/-- Claim C3 counterexample: after three `add_question` calls with
subjects A, B, A, `get_statistics` raises `NameError` (modelled `none`)
instead of reporting a total, and the unfiltered
`get_questions_by_criteria` returns the questions grouped by subject
([cq1, cq3, cq2]), not in insertion order ([cq1, cq2, cq3]). -/
theorem C3_counterexample :
    get_statistics (buildTree [cq1, cq2, cq3]) = none ∧
    get_questions_by_criteria (buildTree [cq1, cq2, cq3]) none none none none ≠
      [cq1, cq2, cq3] := by
  constructor
  · decide
  · decide

/-- Claim C3 (amended): after any sequence of `add_question` calls, the
tree's `total_questions` counter — the value `get_statistics` reads —
equals the number of calls, but `get_statistics` itself returns normally
only on the empty tree (total 0, no subjects) and raises `NameError`
(modelled `none`) once any question has been added; the unfiltered
`get_questions_by_criteria` returns exactly those questions in
hierarchical traversal order — grouped by subject, then topic, then
difficulty, groups in first-occurrence order and questions within each
group in insertion order (`specTraversalOrder`) — a permutation of the
insertion sequence. -/
theorem C3_amended : ∀ qs : List Question,
    (buildTree qs).total_questions = qs.length ∧
    get_statistics (buildTree qs) = (if qs = [] then some ⟨0, 0⟩ else none) ∧
    get_questions_by_criteria (buildTree qs) none none none none =
      specTraversalOrder qs ∧
    List.Perm (specTraversalOrder qs) qs := by
  intro qs
  have horder : get_questions_by_criteria (buildTree qs) none none none none =
      specTraversalOrder qs := by
    rw [query_no_filter_eq_flatten]
    exact flattenTree_of_repr _ _ (reprTree_buildTree qs)
  refine ⟨?_, get_statistics_buildTree qs, horder, ?_⟩
  · rw [buildTree, buildTree_total]
    show (0 : Int) + (qs.length : Int) = _
    ring
  · have h := buildTree_flatten_perm qs emptyTree
    have he : specTraversalOrder qs = flattenTree (buildTree qs) :=
      (flattenTree_of_repr _ _ (reprTree_buildTree qs)).symm
    rw [he]
    show List.Perm (flattenTree (qs.foldl add_question emptyTree)) qs
    simpa using h

lemma removeFromQuestions_eq (qid : String) (qs : List Question) :
    removeFromQuestions qid qs =
      (qs.any (fun q => q.id == qid), qs.eraseP (fun q => q.id == qid)) := by
  induction qs with
  | nil => rfl
  | cons q rest ih =>
    by_cases h : q.id = qid
    · simp [removeFromQuestions, h]
    · simp [removeFromQuestions, h, ih]

lemma removeFromChildren_eq {α : Type} (f : String → α → Bool × α)
    (g : α → List Question) (qid : String)
    (hf1 : ∀ v, (f qid v).1 = (g v).any (fun q => q.id == qid))
    (hf2 : ∀ v, g (f qid v).2 = (g v).eraseP (fun q => q.id == qid)) :
    ∀ l : List (String × α),
      (removeFromChildren f qid l).1 =
        (l.flatMap (fun kv => g kv.2)).any (fun q => q.id == qid) ∧
      (removeFromChildren f qid l).2.flatMap (fun kv => g kv.2) =
        (l.flatMap (fun kv => g kv.2)).eraseP (fun q => q.id == qid) := by
  intro l
  induction l with
  | nil => exact ⟨rfl, rfl⟩
  | cons kv rest ih =>
    cases kv with
    | mk k v =>
      simp only [removeFromChildren, List.flatMap_cons, List.any_append]
      cases hfound : (f qid v).1 with
      | false =>
        have hva : (g v).any (fun q => q.id == qid) = false := by
          rw [← hf1 v, hfound]
        have hnomem : ∀ b ∈ g v, ¬ (fun q => q.id == qid) b = true := by
          intro b hb hpb
          have hcontra : (g v).any (fun q => q.id == qid) = true :=
            List.any_eq_true.2 ⟨b, hb, hpb⟩
          rw [hva] at hcontra
          exact Bool.false_ne_true hcontra
        rw [if_neg (by simp), hva]
        simp only [Bool.false_or, List.flatMap_cons]
        refine ⟨ih.1, ?_⟩
        rw [ih.2, List.eraseP_append_right _ hnomem]
      | true =>
        have hva : (g v).any (fun q => q.id == qid) = true := by
          rw [← hf1 v, hfound]
        obtain ⟨a, ha, hpa⟩ := List.any_eq_true.1 hva
        rw [if_pos rfl, hva]
        simp only [Bool.true_or, List.flatMap_cons]
        refine ⟨trivial, ?_⟩
        rw [hf2 v, List.eraseP_append_left (p := fun q => q.id == qid) hpa _ ha]

lemma removeFromTopic_eq (qid : String) (tn : TopicNode) :
    (removeFromTopic qid tn).1 = (flattenTopic tn).any (fun q => q.id == qid) ∧
    flattenTopic (removeFromTopic qid tn).2 =
      (flattenTopic tn).eraseP (fun q => q.id == qid) := by
  have h := removeFromChildren_eq removeFromDiff (fun dn => dn.questions) qid
    (fun dn => by rw [removeFromDiff, removeFromQuestions_eq])
    (fun dn => by rw [removeFromDiff, removeFromQuestions_eq])
    tn.children
  exact h

lemma removeFromSubject_eq (qid : String) (sn : SubjectNode) :
    (removeFromSubject qid sn).1 =
      (flattenSubject sn).any (fun q => q.id == qid) ∧
    flattenSubject (removeFromSubject qid sn).2 =
      (flattenSubject sn).eraseP (fun q => q.id == qid) := by
  have h := removeFromChildren_eq removeFromTopic flattenTopic qid
    (fun tn => (removeFromTopic_eq qid tn).1)
    (fun tn => (removeFromTopic_eq qid tn).2)
    sn.children
  exact h

lemma remove_question_spec (t : QTree) (qid : String) :
    (remove_question t qid).1 = (flattenTree t).any (fun q => q.id == qid) ∧
    flattenTree (remove_question t qid).2 =
      (flattenTree t).eraseP (fun q => q.id == qid) ∧
    (remove_question t qid).2.total_questions =
      (if (flattenTree t).any (fun q => q.id == qid) then t.total_questions - 1
        else t.total_questions) := by
  have h := removeFromChildren_eq removeFromSubject flattenSubject qid
    (fun sn => (removeFromSubject_eq qid sn).1)
    (fun sn => (removeFromSubject_eq qid sn).2)
    t.subjects
  refine ⟨h.1, h.2, ?_⟩
  show (if (removeFromChildren removeFromSubject qid t.subjects).1 then _ else _) = _
  rw [h.1]
  rfl

lemma removeFromQuestions_not_found (qid : String) (qs : List Question)
    (h : ∀ q ∈ qs, q.id ≠ qid) : removeFromQuestions qid qs = (false, qs) := by
  induction qs with
  | nil => rfl
  | cons q rest ih =>
    have hq : ¬ q.id = qid := h q (List.mem_cons_self q rest)
    have hrest := ih (fun q hq2 => h q (List.mem_cons_of_mem _ hq2))
    simp [removeFromQuestions, hq, hrest]

lemma removeFromChildren_not_found {α : Type} (f : String → α → Bool × α)
    (g : α → List Question) (qid : String)
    (hf : ∀ v, (∀ q ∈ g v, q.id ≠ qid) → f qid v = (false, v)) :
    ∀ l : List (String × α),
      (∀ q ∈ l.flatMap (fun kv => g kv.2), q.id ≠ qid) →
      removeFromChildren f qid l = (false, l) := by
  intro l
  induction l with
  | nil => intro _; rfl
  | cons kv rest ih =>
    intro h
    cases kv with
    | mk k v =>
      have hv : f qid v = (false, v) := by
        apply hf
        intro q hq
        exact h q (by simp [List.mem_flatMap]; exact Or.inl hq)
      have hrest : removeFromChildren f qid rest = (false, rest) := by
        apply ih
        intro q hq
        apply h q
        simp only [List.flatMap_cons, List.mem_append]
        exact Or.inr hq
      simp [removeFromChildren, hv, hrest]

lemma remove_question_not_found (t : QTree) (qid : String)
    (h : ∀ q ∈ flattenTree t, q.id ≠ qid) :
    remove_question t qid = (false, t) := by
  have hsub : ∀ sn : SubjectNode,
      (∀ q ∈ flattenSubject sn, q.id ≠ qid) →
      removeFromSubject qid sn = (false, sn) := by
    intro sn hsn
    have htop : ∀ tn : TopicNode,
        (∀ q ∈ flattenTopic tn, q.id ≠ qid) →
        removeFromTopic qid tn = (false, tn) := by
      intro tn htn
      have hdn : ∀ dn : DiffNode,
          (∀ q ∈ dn.questions, q.id ≠ qid) →
          removeFromDiff qid dn = (false, dn) := by
        intro dn hq
        simp only [removeFromDiff, removeFromQuestions_not_found qid dn.questions hq]
      have hch := removeFromChildren_not_found removeFromDiff
        (fun dn => dn.questions) qid hdn tn.children htn
      simp only [removeFromTopic, hch]
    have hch := removeFromChildren_not_found removeFromTopic flattenTopic qid
      htop sn.children hsn
    simp only [removeFromSubject, hch]
  have hmain := removeFromChildren_not_found removeFromSubject flattenSubject qid
    hsub t.subjects h
  simp only [remove_question, hmain]
  rw [if_neg (by simp)]

lemma lookupA_mem {α : Type} :
    ∀ (l : List (String × α)) (key : String) (v : α),
      lookupA l key = some v → (key, v) ∈ l := by
  intro l
  induction l with
  | nil => intro key v h; exact absurd h (by simp [lookupA])
  | cons kv rest ih =>
    intro key v h
    cases kv with
    | mk k v1 =>
      by_cases hk : k = key
      · rw [lookupA, if_pos hk] at h
        subst hk
        cases h
        exact List.mem_cons_self _ _
      · rw [lookupA, if_neg hk] at h
        exact List.mem_cons_of_mem _ (ih key v h)

lemma stage1_sub (t : QTree) (subject : Option String) :
    ∀ n ∈ criteriaStage1 t subject, ∀ q ∈ snodeQuestions n, q ∈ flattenTree t := by
  intro n hn q hq
  cases subject with
  | none =>
    simp only [criteriaStage1, List.mem_map] at hn
    obtain ⟨kv, hkv, rfl⟩ := hn
    exact List.mem_flatMap.2 ⟨kv, hkv, hq⟩
  | some s =>
    simp only [criteriaStage1] at hn
    cases hl : lookupA t.subjects s with
    | none => rw [hl] at hn; exact absurd hn (by simp)
    | some sn =>
      rw [hl] at hn
      simp only [List.mem_singleton] at hn
      subst hn
      exact List.mem_flatMap.2 ⟨(s, sn), lookupA_mem _ _ _ hl, hq⟩

lemma stage2_sub (tp : Option String) (ns : List SNode) :
    ∀ n2 ∈ criteriaStage2 tp ns, ∃ n ∈ ns,
      ∀ q ∈ snodeQuestions n2, q ∈ snodeQuestions n := by
  intro n2 hn2
  cases tp with
  | none => exact ⟨n2, hn2, fun q hq => hq⟩
  | some tpv =>
    simp only [criteriaStage2, List.mem_filterMap] at hn2
    obtain ⟨n, hn, hchild⟩ := hn2
    refine ⟨n, hn, ?_⟩
    intro q hq
    cases n with
    | subj sn =>
      simp only [snodeGetChild, Option.map_eq_some'] at hchild
      obtain ⟨tn, htn, rfl⟩ := hchild
      exact List.mem_flatMap.2 ⟨(tpv, tn), lookupA_mem _ _ _ htn, hq⟩
    | top tn =>
      simp only [snodeGetChild, Option.map_eq_some'] at hchild
      obtain ⟨dn, hdn, rfl⟩ := hchild
      exact List.mem_flatMap.2 ⟨(tpv, dn), lookupA_mem _ _ _ hdn, hq⟩
    | diff dn => exact absurd hchild (by simp [snodeGetChild])

lemma stage3_sub (d : Option Difficulty) (ns : List SNode) :
    ∀ n3 ∈ criteriaStage3 d ns, ∃ n ∈ ns,
      ∀ q ∈ snodeQuestions n3, q ∈ snodeQuestions n := by
  intro n3 hn3
  cases d with
  | none => exact ⟨n3, hn3, fun q hq => hq⟩
  | some dv =>
    simp only [criteriaStage3, List.mem_flatMap] at hn3
    obtain ⟨n, hn, hcase⟩ := hn3
    refine ⟨n, hn, ?_⟩
    intro q hq
    cases n with
    | top tn =>
      have hcase2 : n3 ∈ (Option.map SNode.diff
          (lookupA tn.children (diffValue dv))).toList := hcase
      cases hl : lookupA tn.children (diffValue dv) with
      | none => rw [hl] at hcase2; exact absurd hcase2 (by simp)
      | some dn =>
        rw [hl] at hcase2
        simp only [Option.map_some', Option.toList_some, List.mem_singleton] at hcase2
        subst hcase2
        exact List.mem_flatMap.2 ⟨(diffValue dv, dn), lookupA_mem _ _ _ hl, hq⟩
    | subj sn =>
      have hcase2 : n3 ∈ sn.children.filterMap (fun kv =>
          Option.map SNode.diff (lookupA kv.2.children (diffValue dv))) := hcase
      simp only [List.mem_filterMap] at hcase2
      obtain ⟨kv, hkv, hlook⟩ := hcase2
      simp only [Option.map_eq_some'] at hlook
      obtain ⟨dn, hdn, rfl⟩ := hlook
      have hqt : q ∈ flattenTopic kv.2 :=
        List.mem_flatMap.2 ⟨(diffValue dv, dn), lookupA_mem _ _ _ hdn, hq⟩
      exact List.mem_flatMap.2 ⟨kv, hkv, hqt⟩
    | diff dn =>
      have hcase2 : n3 ∈ ([] : List SNode) := hcase
      exact absurd hcase2 (by simp)

lemma query_mem_flatten (t : QTree) (subject topic : Option String)
    (difficulty : Option Difficulty) (limit : Option Nat) :
    ∀ q ∈ get_questions_by_criteria t subject topic difficulty limit,
      q ∈ flattenTree t := by
  intro q hq
  have hq2 : q ∈ (criteriaStage3 difficulty
      (criteriaStage2 topic (criteriaStage1 t subject))).flatMap snodeQuestions := by
    cases limit with
    | none => exact hq
    | some l =>
      have hq1 : q ∈ (if l ≠ 0 ∧
          ((criteriaStage3 difficulty (criteriaStage2 topic
            (criteriaStage1 t subject))).flatMap snodeQuestions).length > l
          then ((criteriaStage3 difficulty (criteriaStage2 topic
            (criteriaStage1 t subject))).flatMap snodeQuestions).take l
          else (criteriaStage3 difficulty (criteriaStage2 topic
            (criteriaStage1 t subject))).flatMap snodeQuestions) := hq
      by_cases hcond : l ≠ 0 ∧
          ((criteriaStage3 difficulty (criteriaStage2 topic
            (criteriaStage1 t subject))).flatMap snodeQuestions).length > l
      · rw [if_pos hcond] at hq1
        exact List.take_subset _ _ hq1
      · rw [if_neg hcond] at hq1
        exact hq1
  obtain ⟨n3, hn3, hq3⟩ := List.mem_flatMap.1 hq2
  obtain ⟨n2, hn2, hs3⟩ := stage3_sub difficulty _ n3 hn3
  obtain ⟨n1, hn1, hs2⟩ := stage2_sub topic _ n2 hn2
  exact stage1_sub t subject n1 hn1 q (hs2 q (hs3 q hq3))

lemma eraseP_all_neg {α : Type} {p : α → Bool} :
    ∀ l : List α, l.countP p = 1 → ∀ a ∈ l.eraseP p, ¬ p a = true := by
  intro l
  induction l with
  | nil => intro _ a ha; exact absurd ha (by simp)
  | cons x xs ih =>
    intro hcount a ha
    by_cases hx : p x = true
    · rw [List.eraseP_cons_of_pos hx] at ha
      rw [List.countP_cons, if_pos hx] at hcount
      have hzero : xs.countP p = 0 := by omega
      exact (List.countP_eq_zero.1 hzero) a ha
    · rw [List.eraseP_cons_of_neg hx] at ha
      rw [List.countP_cons, if_neg hx] at hcount
      rcases List.mem_cons.1 ha with rfl | ha2
      · exact hx
      · exact ih (by omega) a ha2

/-- Claim C6: for an id present exactly once, `remove_question` returns
true, decrements `total_questions` by exactly 1, and no question with
that id appears in any subsequent `get_questions_by_criteria` result
(with any filters); for an id present nowhere it returns false and
leaves the whole tree unchanged. -/
theorem C6_remove_question :
    (∀ (t : QTree) (qid : String),
      (flattenTree t).countP (fun q => q.id == qid) = 1 →
        (remove_question t qid).1 = true ∧
        (remove_question t qid).2.total_questions = t.total_questions - 1 ∧
        ∀ (subject topic : Option String) (difficulty : Option Difficulty)
          (limit : Option Nat) (q : Question),
          q ∈ get_questions_by_criteria (remove_question t qid).2
            subject topic difficulty limit → q.id ≠ qid) ∧
    (∀ (t : QTree) (qid : String),
      (∀ q ∈ flattenTree t, q.id ≠ qid) →
        remove_question t qid = (false, t)) := by
  constructor
  · intro t qid hcount
    have hspec := remove_question_spec t qid
    have hany : (flattenTree t).any (fun q => q.id == qid) = true := by
      apply List.any_eq_true.2
      have hpos : 0 < (flattenTree t).countP (fun q => q.id == qid) := by omega
      obtain ⟨a, ha, hpa⟩ := List.countP_pos_iff.1 hpos
      exact ⟨a, ha, hpa⟩
    refine ⟨by rw [hspec.1, hany], by rw [hspec.2.2, if_pos hany], ?_⟩
    intro subject topic difficulty limit q hq
    have hqflat : q ∈ flattenTree (remove_question t qid).2 :=
      query_mem_flatten _ subject topic difficulty limit q hq
    rw [hspec.2.1] at hqflat
    have hneg := eraseP_all_neg (flattenTree t) hcount q hqflat
    intro hid
    exact hneg (by simp [hid])
  · intro t qid h
    exact remove_question_not_found t qid h

/-- Witness for C6 at a concrete two-question tree: removing a present
id and an absent id. -/
theorem C6_witness :
    (remove_question (buildTree [cq1, cq2]) "q1").1 = true ∧
    (remove_question (buildTree [cq1, cq2]) "q1").2.total_questions =
      (buildTree [cq1, cq2]).total_questions - 1 ∧
    remove_question (buildTree [cq1, cq2]) "absent" =
      (false, buildTree [cq1, cq2]) :=
  ⟨(C6_remove_question.1 (buildTree [cq1, cq2]) "q1" (by decide)).1,
    (C6_remove_question.1 (buildTree [cq1, cq2]) "q1" (by decide)).2.1,
    C6_remove_question.2 (buildTree [cq1, cq2]) "absent" (by decide)⟩

lemma getD_cons_eraseIdx_perm {α : Type} :
    ∀ (l : List α) (j : Nat), j < l.length → ∀ d : α,
      List.Perm (l.getD j d :: l.eraseIdx j) l := by
  intro l
  induction l with
  | nil => intro j hj; exact absurd hj (by simp)
  | cons a rest ih =>
    intro j hj d
    cases j with
    | zero => exact List.Perm.refl _
    | succ j =>
      have hj2 : j < rest.length := by simpa using hj
      have hperm := ih j hj2 d
      exact (List.Perm.swap a (rest.getD j d) (rest.eraseIdx j)).trans
        (hperm.cons a)

lemma shuffleWith_perm :
    ∀ (seed : List Nat) (xs : List Question),
      List.Perm (shuffleWith seed xs) xs := by
  intro seed
  induction seed with
  | nil =>
    intro xs
    cases xs with
    | nil => exact List.Perm.refl _
    | cons x rest => exact List.Perm.refl _
  | cons i is ih =>
    intro xs
    cases xs with
    | nil => exact List.Perm.refl _
    | cons x rest =>
      show List.Perm ((x :: rest).getD (i % (x :: rest).length) x ::
        shuffleWith is ((x :: rest).eraseIdx (i % (x :: rest).length))) (x :: rest)
      have hlt : i % (x :: rest).length < (x :: rest).length :=
        Nat.mod_lt _ (by simp)
      have h1 := (ih ((x :: rest).eraseIdx (i % (x :: rest).length))).cons
        ((x :: rest).getD (i % (x :: rest).length) x)
      exact h1.trans (getD_cons_eraseIdx_perm _ _ hlt x)

lemma reorder_by_difficulty_perm (queue : List Question) (target : Difficulty) :
    List.Perm (reorder_by_difficulty queue target) queue := by
  have h := List.filter_append_perm
    (fun q => decide (q.difficulty = target)) queue
  unfold reorder_by_difficulty
  have he : (queue.filter fun q => ¬ q.difficulty = target) =
      (queue.filter fun q => ! decide (q.difficulty = target)) := by
    congr 1
    funext q
    simp [decide_not]
  rw [he]
  exact h

lemma apply_adaptive_ordering_fields (s : QState) :
    List.Perm (apply_adaptive_ordering s).queue s.queue ∧
    (apply_adaptive_ordering s).stats = s.stats ∧
    (apply_adaptive_ordering s).performance_history = s.performance_history ∧
    (apply_adaptive_ordering s).answered_questions = s.answered_questions ∧
    (apply_adaptive_ordering s).adaptive_mode = s.adaptive_mode := by
  unfold apply_adaptive_ordering
  by_cases h : s.performance_history.length < 3
  · rw [if_pos h]
    exact ⟨List.Perm.refl _, rfl, rfl, rfl, rfl⟩
  · rw [if_neg h]
    exact ⟨reorder_by_difficulty_perm _ _, rfl, rfl, rfl, rfl⟩

lemma add_questions_foldl (l : List Question) :
    ∀ s : QState,
      (l.foldl add_questions_step s).queue = s.queue ++ l ∧
      (l.foldl add_questions_step s).stats.total_added =
        s.stats.total_added + l.length ∧
      (l.foldl add_questions_step s).stats.total_served =
        s.stats.total_served ∧
      (l.foldl add_questions_step s).performance_history =
        s.performance_history ∧
      (l.foldl add_questions_step s).answered_questions =
        s.answered_questions ∧
      (l.foldl add_questions_step s).adaptive_mode = s.adaptive_mode ∧
      (l.foldl add_questions_step s).opt_cache = s.opt_cache := by
  induction l with
  | nil => intro s; exact ⟨by simp, by simp, rfl, rfl, rfl, rfl, rfl⟩
  | cons q rest ih =>
    intro s
    have h := ih (add_questions_step s q)
    refine ⟨?_, ?_, h.2.2.1, h.2.2.2.1, h.2.2.2.2.1, h.2.2.2.2.2.1,
      h.2.2.2.2.2.2⟩
    · rw [List.foldl_cons, h.1]
      show (s.queue ++ [q]) ++ rest = s.queue ++ q :: rest
      simp
    · rw [List.foldl_cons, h.2.1]
      show s.stats.total_added + 1 + (rest.length : Int) = _
      simp only [List.length_cons]
      push_cast
      ring

lemma add_questions_history (s : QState) (qs : List Question) (r : Bool)
    (seed : List Nat) :
    (add_questions s qs r seed).performance_history = s.performance_history := by
  unfold add_questions update_stats
  exact (add_questions_foldl _ s).2.2.2.1

lemma add_question_priority_history (s : QState) (q : Question) (p : String) :
    (add_question_priority s q p).performance_history = s.performance_history := by
  unfold add_question_priority update_stats
  by_cases hp : p = "high" <;> simp [hp]

lemma insert_at_position_history (s : QState) (q : Question) (pos : Int) :
    (insert_at_position s q pos).performance_history = s.performance_history := rfl

lemma get_next_question_history (s : QState) :
    (get_next_question s).2.performance_history = s.performance_history := by
  unfold get_next_question
  cases hq : s.queue with
  | nil => rfl
  | cons x rest =>
    by_cases hc : s.adaptive_mode ∧ s.performance_history ≠ []
    · simp only [hq, if_pos hc]
      cases hq1 : (apply_adaptive_ordering s).queue with
      | nil =>
        simp only [hq1]
        exact (apply_adaptive_ordering_fields s).2.2.1
      | cons y rest1 =>
        simp only [hq1, update_stats]
        exact (apply_adaptive_ordering_fields s).2.2.1
    · simp only [hq, if_neg hc, update_stats]

lemma record_answer_history_step (s : QState) (q : Question) (c : Bool) (t : ℚ)
    (hlen : s.performance_history.length ≤ 10) :
    (record_answer s q c t).performance_history =
      (if s.performance_history.length < 10
        then s.performance_history ++ [if c then (1 : ℚ) else 0]
        else ((s.performance_history ++ [if c then (1 : ℚ) else 0]).drop
          ((s.performance_history ++ [if c then (1 : ℚ) else 0]).length - 10))) := by
  show (if (s.performance_history ++ [if c then (1 : ℚ) else 0]).length > 10
      then (s.performance_history ++ [if c then (1 : ℚ) else 0]).tail
      else s.performance_history ++ [if c then (1 : ℚ) else 0]) = _
  by_cases hlt : s.performance_history.length < 10
  · rw [if_neg (by simp; omega), if_pos hlt]
  · have h10 : s.performance_history.length = 10 := by omega
    rw [if_pos (by simp; omega), if_neg hlt]
    have hlen2 : (s.performance_history ++ [if c then (1 : ℚ) else 0]).length = 11 := by
      simp [h10]
    rw [hlen2]
    show _ = List.drop 1 _
    rw [List.drop_one]

lemma history_invariant_step (s : QState) (hs : history_invariant s) (op : QOp) :
    history_invariant (applyOp s op) := by
  obtain ⟨hlen, hval⟩ := hs
  cases op with
  | addQuestions qs r seed =>
    show history_invariant (add_questions s qs r seed)
    rw [history_invariant, add_questions_history]
    exact ⟨hlen, hval⟩
  | addPriority q p =>
    show history_invariant (add_question_priority s q p)
    rw [history_invariant, add_question_priority_history]
    exact ⟨hlen, hval⟩
  | insertAt q pos =>
    show history_invariant (insert_at_position s q pos)
    rw [history_invariant, insert_at_position_history]
    exact ⟨hlen, hval⟩
  | getNext =>
    show history_invariant (get_next_question s).2
    rw [history_invariant, get_next_question_history]
    exact ⟨hlen, hval⟩
  | recordAnswer q c t =>
    show history_invariant (record_answer s q c t)
    rw [history_invariant, record_answer_history_step s q c t hlen]
    by_cases hlt : s.performance_history.length < 10
    · rw [if_pos hlt]
      constructor
      · simp; omega
      · intro x hx
        rcases List.mem_append.1 hx with hx1 | hx2
        · exact hval x hx1
        · rcases List.mem_singleton.1 hx2 with rfl
          cases c
          · exact Or.inr rfl
          · exact Or.inl rfl
    · rw [if_neg hlt]
      constructor
      · simp
        omega
      · intro x hx
        have hx2 := List.mem_of_mem_drop hx
        rcases List.mem_append.1 hx2 with hx3 | hx4
        · exact hval x hx3
        · rcases List.mem_singleton.1 hx4 with rfl
          cases c
          · exact Or.inr rfl
          · exact Or.inl rfl
  | shuffle seed => exact ⟨hlen, hval⟩
  | clear => exact ⟨by simp [applyOp, clear_queue], by simp [applyOp, clear_queue]⟩
  | peekNext => exact ⟨hlen, hval⟩
  | peekMany n => exact ⟨hlen, hval⟩
  | status => exact ⟨hlen, hval⟩

/-- Claim C8: after every sequence of public queue operations the
performance history holds at most 10 values, each 1.0 or 0.0; and
`record_answer` on any reachable state appends 1.0 for a correct answer
and 0.0 otherwise, discarding the oldest entry first once the history
exceeds 10 entries (strict FIFO trim). -/
theorem C8_history_bounded :
    (∀ (adaptive : Bool) (ops : List QOp), history_invariant (runOps adaptive ops)) ∧
    (∀ (adaptive : Bool) (ops : List QOp) (q : Question) (c : Bool) (t : ℚ),
      (record_answer (runOps adaptive ops) q c t).performance_history =
        (if (runOps adaptive ops).performance_history.length < 10
          then (runOps adaptive ops).performance_history ++
            [if c then (1 : ℚ) else 0]
          else (((runOps adaptive ops).performance_history ++
              [if c then (1 : ℚ) else 0]).drop
            (((runOps adaptive ops).performance_history ++
              [if c then (1 : ℚ) else 0]).length - 10)))) := by
  have hrun : ∀ (adaptive : Bool) (ops : List QOp),
      history_invariant (runOps adaptive ops) := by
    intro adaptive ops
    have hgen : ∀ (l : List QOp) (s : QState), history_invariant s →
        history_invariant (l.foldl applyOp s) := by
      intro l
      induction l with
      | nil => intro s hs; exact hs
      | cons op rest ih =>
        intro s hs
        exact ih (applyOp s op) (history_invariant_step s hs op)
    exact hgen ops (initQueue adaptive) ⟨by simp [initQueue], by simp [initQueue]⟩
  refine ⟨hrun, ?_⟩
  intro adaptive ops q c t
  exact record_answer_history_step _ q c t (hrun adaptive ops).1

lemma size_invariant_add_questions (s : QState) (hs : size_invariant s)
    (qs : List Question) (r : Bool) (seed : List Nat) :
    size_invariant (add_questions s qs r seed) := by
  obtain ⟨h1, h2⟩ := hs
  unfold add_questions update_stats
  have h := add_questions_foldl (if r then shuffleWith seed qs else qs) s
  constructor
  · rfl
  · show ((_ : List Question).length : Int) = _
    rw [h.1, h.2.1, h.2.2.1]
    simp only [List.length_append]
    push_cast
    omega

lemma size_invariant_add_priority (s : QState) (hs : size_invariant s)
    (q : Question) (p : String) :
    size_invariant (add_question_priority s q p) := by
  obtain ⟨h1, h2⟩ := hs
  unfold add_question_priority update_stats
  by_cases hp : p = "high"
  · rw [if_pos hp]
    refine ⟨rfl, ?_⟩
    show ((q :: s.queue).length : Int) = _
    simp only [List.length_cons]
    push_cast
    omega
  · rw [if_neg hp]
    refine ⟨rfl, ?_⟩
    show ((s.queue ++ [q]).length : Int) = _
    simp only [List.length_append, List.length_singleton]
    push_cast
    omega

lemma size_invariant_insert_at (s : QState) (hs : size_invariant s)
    (q : Question) (pos : Int) :
    size_invariant (insert_at_position s q pos) := by
  obtain ⟨h1, h2⟩ := hs
  unfold insert_at_position update_stats
  set p : Nat := if pos < 0 ∨ pos > (s.queue.length : Int) then s.queue.length
    else pos.toNat with hp
  have hple : p ≤ s.queue.length := by
    rw [hp]
    split_ifs with hcond
    · exact le_refl _
    · push_neg at hcond
      omega
  refine ⟨rfl, ?_⟩
  show ((s.queue.take p ++ q :: s.queue.drop p).length : Int) = _
  simp only [List.length_append, List.length_cons, List.length_take,
    List.length_drop]
  push_cast
  omega

lemma size_invariant_get_next (s : QState) (hs : size_invariant s) :
    size_invariant (get_next_question s).2 := by
  obtain ⟨h1, h2⟩ := hs
  unfold get_next_question
  cases hq : s.queue with
  | nil => exact ⟨h1, h2⟩
  | cons x rest =>
    by_cases hc : s.adaptive_mode ∧ s.performance_history ≠ []
    · simp only [hq, if_pos hc]
      have hfields := apply_adaptive_ordering_fields s
      have hlen : (apply_adaptive_ordering s).queue.length = s.queue.length :=
        hfields.1.length_eq
      cases hq1 : (apply_adaptive_ordering s).queue with
      | nil =>
        rw [hq1] at hlen
        rw [hq] at hlen
        exact absurd hlen (by simp)
      | cons y rest1 =>
        simp only [hq1, update_stats]
        refine ⟨rfl, ?_⟩
        dsimp only
        have hr1 : rest1.length + 1 = rest.length + 1 := by
          have h3 := hlen
          rw [hq1, hq] at h3
          simpa using h3
        rw [hfields.2.1]
        have hql : (s.queue.length : Int) = (rest.length : Int) + 1 := by
          rw [hq]; simp
        rw [h1] at h2
        omega
    · simp only [hq, if_neg hc, update_stats]
      refine ⟨rfl, ?_⟩
      dsimp only
      have hql : (s.queue.length : Int) = (rest.length : Int) + 1 := by
        rw [hq]; simp
      rw [h1] at h2
      omega

lemma size_invariant_step (s : QState) (hs : size_invariant s) (op : QOp) :
    size_invariant (applyOp s op) := by
  cases op with
  | addQuestions qs r seed => exact size_invariant_add_questions s hs qs r seed
  | addPriority q p => exact size_invariant_add_priority s hs q p
  | insertAt q pos => exact size_invariant_insert_at s hs q pos
  | getNext => exact size_invariant_get_next s hs
  | recordAnswer q c t => exact hs
  | shuffle seed =>
    obtain ⟨h1, h2⟩ := hs
    refine ⟨?_, h2⟩
    show s.stats.current_size = ((shuffleWith seed s.queue).length : Int)
    rw [(shuffleWith_perm seed s.queue).length_eq]
    exact h1
  | clear => exact ⟨by simp [applyOp, clear_queue], by simp [applyOp, clear_queue]⟩
  | peekNext => exact hs
  | peekMany n => exact hs
  | status => exact hs

/-- Claim C10: after every sequence of public queue operations starting
from a fresh queue, `stats.current_size` equals the queue length and
equals `total_added - total_served`. -/
theorem C10_size_invariant :
    ∀ (adaptive : Bool) (ops : List QOp), size_invariant (runOps adaptive ops) := by
  intro adaptive ops
  have hgen : ∀ (l : List QOp) (s : QState), size_invariant s →
      size_invariant (l.foldl applyOp s) := by
    intro l
    induction l with
    | nil => intro s hs; exact hs
    | cons op rest ih =>
      intro s hs
      exact ih (applyOp s op) (size_invariant_step s hs op)
  exact hgen ops (initQueue adaptive) ⟨by simp [initQueue], by simp [initQueue]⟩

/-- Claim C7: no queue operation fails for structural reasons —
`get_next_question` on an empty queue returns the empty signal and
leaves the state unchanged; `insert_at_position` with a negative
position or one beyond the current length appends at the end; and
`add_question_priority` with any priority other than "high" appends to
the tail. -/
theorem C7_structural_totality :
    (∀ s : QState, s.queue = [] → get_next_question s = (none, s)) ∧
    (∀ (s : QState) (q : Question) (position : Int),
      (position < 0 ∨ position > (s.queue.length : Int)) →
      (insert_at_position s q position).queue = s.queue ++ [q]) ∧
    (∀ (s : QState) (q : Question) (priority : String),
      priority ≠ "high" →
      (add_question_priority s q priority).queue = s.queue ++ [q]) := by
  refine ⟨?_, ?_, ?_⟩
  · intro s h
    unfold get_next_question
    rw [h]
  · intro s q position h
    unfold insert_at_position update_stats
    rw [if_pos h]
    simp [List.take_length, List.drop_length]
  · intro s q priority h
    unfold add_question_priority update_stats
    rw [if_neg h]

/-- Witness for C7 at concrete inputs: a fresh queue, position -1, and
priority "bogus". -/
theorem C7_witness :
    get_next_question (initQueue true) = (none, initQueue true) ∧
    (insert_at_position (initQueue true) cq1 (-1)).queue =
      (initQueue true).queue ++ [cq1] ∧
    (add_question_priority (initQueue true) cq1 "bogus").queue =
      (initQueue true).queue ++ [cq1] :=
  ⟨C7_structural_totality.1 (initQueue true) rfl,
    C7_structural_totality.2.1 (initQueue true) cq1 (-1) (by decide),
    C7_structural_totality.2.2 (initQueue true) cq1 "bogus" (by decide)⟩

/-- Claim C2: for a queue holding [beginner, advanced, intermediate,
beginner] in adaptive mode with at least 3 recorded answers whose last-3
mean makes the optimizer recommend beginner, the reorder performed by
`get_next_question` is a stable partition — both beginner questions move
ahead of the others, each group keeping its relative order, the contents
staying the same multiset — and the call then serves the first beginner,
leaving [beginner₂, advanced, intermediate]. -/
theorem C2_adaptive_stable_partition (qa qb qc qd : Question) (s : QState)
    (hq : s.queue = [qa, qb, qc, qd])
    (ha : qa.difficulty = .beginner) (hb : qb.difficulty = .advanced)
    (hc : qc.difficulty = .intermediate) (hd : qd.difficulty = .beginner)
    (hadaptive : s.adaptive_mode = true)
    (hlen : 3 ≤ s.performance_history.length)
    (hopt : (get_optimal_next_difficulty s.opt_cache
        (get_current_difficulty_level s)
        ((s.performance_history.drop (s.performance_history.length - 3)).sum / 3)
        none).1 = .beginner) :
    (apply_adaptive_ordering s).queue = [qa, qd, qb, qc] ∧
    List.Perm (apply_adaptive_ordering s).queue s.queue ∧
    (get_next_question s).1 = some qa ∧
    (get_next_question s).2.queue = [qd, qb, qc] := by
  have hqueue : (apply_adaptive_ordering s).queue = [qa, qd, qb, qc] := by
    unfold apply_adaptive_ordering
    rw [if_neg (by omega)]
    show reorder_by_difficulty s.queue
      (get_optimal_next_difficulty s.opt_cache (get_current_difficulty_level s)
        ((s.performance_history.drop (s.performance_history.length - 3)).sum / 3)
        none).1 = _
    rw [hopt, hq]
    unfold reorder_by_difficulty
    simp [List.filter_cons, ha, hb, hc, hd]
  have hperm : List.Perm (apply_adaptive_ordering s).queue s.queue := by
    rw [hqueue, hq]
    have h1 : List.Perm ([qd] ++ [qb, qc]) ([qb, qc] ++ [qd]) :=
      List.perm_append_comm
    exact (h1.cons qa)
  have hcond : s.adaptive_mode ∧ s.performance_history ≠ [] := by
    refine ⟨hadaptive, ?_⟩
    intro h0
    rw [h0] at hlen
    simp at hlen
  have hgn : (get_next_question s).1 = some qa ∧
      (get_next_question s).2.queue = [qd, qb, qc] := by
    unfold get_next_question
    simp only [hq, if_pos hcond, hqueue, update_stats]
    exact ⟨trivial, trivial⟩
  exact ⟨hqueue, hperm, hgn.1, hgn.2⟩

lemma C2_state_opt :
    (get_optimal_next_difficulty C2_state.opt_cache
      (get_current_difficulty_level C2_state)
      ((C2_state.performance_history.drop
        (C2_state.performance_history.length - 3)).sum / 3) none).1 =
      Difficulty.beginner := by
  with_unfolding_all rfl

/-- Witness for C2: the concrete scenario state `C2_state` (fresh queue,
four questions enqueued in order, three correct answers recorded). -/
theorem C2_witness :
    (apply_adaptive_ordering C2_state).queue = [wq1, wq4, wq2, wq3] ∧
    (get_next_question C2_state).1 = some wq1 ∧
    (get_next_question C2_state).2.queue = [wq4, wq2, wq3] :=
  ⟨(C2_adaptive_stable_partition wq1 wq2 wq3 wq4 C2_state rfl rfl rfl rfl rfl
      rfl (by decide) C2_state_opt).1,
    (C2_adaptive_stable_partition wq1 wq2 wq3 wq4 C2_state rfl rfl rfl rfl rfl
      rfl (by decide) C2_state_opt).2.2.1,
    (C2_adaptive_stable_partition wq1 wq2 wq3 wq4 C2_state rfl rfl rfl rfl rfl
      rfl (by decide) C2_state_opt).2.2.2⟩
